import Mathlib

/-
Verification development for the Mini-RAG repository (src/api).

The Python source is shallowly embedded below. Python dictionaries that
carry document metadata are modelled as ordered association lists, matching
the insertion-order semantics of Python dicts. External collaborators
(tiktoken tokenizer, SHA-256, the vector store, the MMR search, the Cohere
reranker, the PDF loader and the chat model) are modelled as explicit
parameters or idealized pure functions, each marked in its doc comment.
-/

/-- Metadata values occurring in this pipeline: strings and integers
(e.g. source names and page numbers). -/
inductive PyVal where
  | s : String → PyVal
  | i : Int → PyVal
deriving DecidableEq, Repr

/-- A Python dict in insertion order, as used for document metadata. -/
abbrev Metadata := List (String × PyVal)

/-- Embeds langchain Document: page_content plus metadata. -/
structure Doc where
  pageContent : String
  metadata : Metadata
deriving DecidableEq, Repr

/-- Dict lookup, first matching key. -/
def pyGet (m : Metadata) (k : String) : Option PyVal :=
  match m with
  | [] => none
  | (k2, v) :: rest => if k2 = k then some v else pyGet rest k

/-- Dict assignment: overwrite in place when the key exists, else append,
matching Python dict update order. -/
def pySet (m : Metadata) (k : String) (v : PyVal) : Metadata :=
  match m with
  | [] => [(k, v)]
  | (k2, w) :: rest => if k2 = k then (k, v) :: rest else (k2, w) :: pySet rest k v

/-- Python repr of a string value, as rendered inside str(dict). String
escaping is elided; the keys and values used in this pipeline need none. -/
def pyReprStr (s : String) : String := "\x27" ++ s ++ "\x27"

/-- Python repr of a metadata value. -/
def pyReprVal : PyVal → String
  | PyVal.s s => pyReprStr s
  | PyVal.i n => toString n

/-- Embeds str(doc.metadata): Python renders a dict in insertion order as
\x7bk1: v1, k2: v2\x7d with repr of each key and value. -/
def pyStrDict (m : Metadata) : String :=
  "\x7b" ++ String.intercalate ", " (m.map (fun kv => pyReprStr kv.1 ++ ": " ++ pyReprVal kv.2)) ++ "\x7d"

/-- Hex digit characters 0-9a-f. -/
def hexDigitChar (n : Nat) : Char :=
  if n < 10 then Char.ofNat (48 + n) else Char.ofNat (87 + n)

/-- Fixed-width big-endian hex rendering of a natural number. -/
def natToHexFixed : Nat → Nat → List Char
  | 0, _ => []
  | Nat.succ w, n => natToHexFixed w (n / 16) ++ [hexDigitChar (n % 16)]

/-- Numeric value of a hex digit character. -/
def hexVal (c : Char) : Nat :=
  if c.toNat ≥ 97 then c.toNat - 87 else c.toNat - 48

/-- Decode a big-endian hex digit list. -/
def fromHex (l : List Char) : Nat :=
  l.foldl (fun acc c => acc * 16 + hexVal c) 0

/-- Eight hex digits covering one unicode code point. -/
def charHex (c : Char) : List Char := natToHexFixed 8 c.toNat

/-- Concatenation of character blocks. -/
def concatAll : List (List Char) → List Char
  | [] => []
  | l :: ls => l ++ concatAll ls

/-- Modelled from the spec: hashlib.sha256(...).hexdigest() is an external
cryptographic digest, a deterministic hex string; the spec treats it as
collision resistant, which the model idealizes as injectivity. The model
renders each code point of the input as a fixed-width hex block. -/
def sha256hex (s : String) : String :=
  String.mk (concatAll (s.data.map charHex))

/-- Embeds utilities.getDocID: hash of page_content, a dash, and the hash
of str(metadata). -/
def getDocID (doc : Doc) : String :=
  sha256hex doc.pageContent ++ "-" ++ sha256hex (pyStrDict doc.metadata)

/-- Sum of an abstract length function over a list of pieces; this is the
accounting the splitter uses for a candidate chunk. -/
def sumLen (len : String → Nat) : List String → Nat
  | [] => 0
  | s :: ss => len s + sumLen len ss

/-- Concatenation of pieces into one chunk string. Merging joins with the
empty separator because pieces retain their separators. -/
def joinAll : List String → String
  | [] => ""
  | s :: ss => s ++ joinAll ss

/-- Emit the current buffer as a chunk, dropping an empty result. -/
def flushJoin (cur : List String) : List String :=
  if joinAll cur = "" then [] else [joinAll cur]

/-- Modelled from the spec: after emitting a chunk, the splitter retains a
tail of the buffer worth at most the configured overlap, dropping leading
pieces while the buffer exceeds the overlap or cannot accept the next
piece within the target size. -/
def popOverlap (len : String → Nat) (size overlap nextLen : Nat) : List String → List String
  | [] => []
  | c :: cs =>
    if sumLen len (c :: cs) > overlap ∨ (sumLen len (c :: cs) + nextLen > size ∧ sumLen len (c :: cs) > 0)
    then popOverlap len size overlap nextLen cs
    else c :: cs

/-- Modelled from the spec: greedy merge of small pieces into chunks under
the target size, with overlap carried across chunk boundaries. -/
def mergeAux (len : String → Nat) (size overlap : Nat) : List String → List String → List String
  | cur, [] => flushJoin cur
  | cur, d :: ds =>
    if sumLen len cur + len d > size then
      flushJoin cur ++ mergeAux len size overlap (popOverlap len size overlap (len d) cur ++ [d]) ds
    else
      mergeAux len size overlap (cur ++ [d]) ds

/-- Merge a run of pieces starting from an empty buffer. -/
def mergeSplits (len : String → Nat) (size overlap : Nat) (ds : List String) : List String :=
  mergeAux len size overlap [] ds

/-- Splice merged runs of small pieces around already-final chunk lists
coming from recursive splitting, preserving order. -/
def mergeRunsAux (len : String → Nat) (size overlap : Nat) : List String → List (Sum String (List String)) → List String
  | acc, [] => mergeSplits len size overlap acc
  | acc, Sum.inl g :: xs => mergeRunsAux len size overlap (acc ++ [g]) xs
  | acc, Sum.inr cs :: xs => mergeSplits len size overlap acc ++ cs ++ mergeRunsAux len size overlap [] xs

/-- Consume a literal pattern from the front of a character list. -/
def matchPat : List Char → List Char → Option (List Char)
  | [], l => some l
  | _ :: _, [] => none
  | p :: ps, c :: cs => if p = c then matchPat ps cs else none

/-- Fuel-driven split of a character list on a nonempty separator pattern,
mirroring Python str.split: the separator is dropped and empty pieces at
the ends are kept. -/
def splitOnFuel (sep : List Char) : Nat → List Char → List Char → List (List Char)
  | 0, acc, _ => [acc.reverse]
  | Nat.succ fuel, acc, l =>
    match l with
    | [] => [acc.reverse]
    | c :: cs =>
      match matchPat sep l with
      | some rest => acc.reverse :: splitOnFuel sep fuel [] rest
      | none => splitOnFuel sep fuel (c :: acc) cs

/-- Split a string on a nonempty separator. -/
def splitOnStr (sep text : String) : List String :=
  (splitOnFuel sep.data (text.data.length + 1) [] text.data).map String.mk

/-- Modelled from the spec: one splitting pass of the recursive splitter.
Pieces after the first keep the separator at their front, and empty pieces
are discarded; the empty separator splits into single characters. -/
def splitKeepSep (sep : String) (text : String) : List String :=
  if sep = "" then
    (text.data.map (fun c => String.mk [c])).filter (fun s => s != "")
  else
    match splitOnStr sep text with
    | [] => []
    | p :: ps => (p :: ps.map (fun q => sep ++ q)).filter (fun s => s != "")

/-- Modelled from the spec: the recursive separator splitter of the
Chunker (RecursiveCharacterTextSplitter, an external library configured by
indexing.loadAndChunk and app.ingest_document). The text is split on the
current separator; pieces under the target size are merged back together
under the size budget with overlap, and oversize pieces are split again
with the remaining separators, character level last, so only a piece that
no separator can divide is ever emitted oversize. The fuel argument is
instantiated with the separator count and only drives termination. -/
def splitTextF (len : String → Nat) (size overlap : Nat) : Nat → List String → String → List String
  | 0, _, text => [text]
  | Nat.succ fuel, seps, text =>
    match seps with
    | [] => [text]
    | sep :: rest =>
      mergeRunsAux len size overlap []
        ((splitKeepSep sep text).map (fun p =>
          if len p < size then Sum.inl p else Sum.inr (splitTextF len size overlap fuel rest p)))

/-- Recursive splitting over a separator ladder. -/
def splitText (len : String → Nat) (size overlap : Nat) (seps : List String) (text : String) : List String :=
  splitTextF len size overlap seps.length seps text

/-- Separator ladder configured in indexing.loadAndChunk and
app.ingest_document. -/
def theSeparators : List String := ["\n\n", "\n", " ", ""]

/-- Chunking of one text with the configured chunk_size 1000 and
chunk_overlap 200, length measured by the abstract tokenizer len. -/
def chunkText (len : String → Nat) (text : String) : List String :=
  splitText len 1000 200 theSeparators text

/-- Embeds split_documents: each document is chunked and every chunk
inherits the parent metadata unchanged. -/
def splitDocs (len : String → Nat) : List Doc → List Doc
  | [] => []
  | d :: ds => (chunkText len d.pageContent).map (fun t => { pageContent := t, metadata := d.metadata }) ++ splitDocs len ds

/-- Modelled from the spec: the vector store similarity ranking behind the
MMR search. The broad candidate pool is the fetch_k most relevant stored
chunks for the question. -/
def fetchPool (rel : Doc → Int) (fetchK : Nat) (store : List Doc) : List Doc :=
  (store.insertionSort (fun a b => rel b ≤ rel a)).take fetchK

/-- Best element of a list under a scoring function, first on ties. -/
def pickBest (f : Doc → Int) : List Doc → Option Doc
  | [] => none
  | d :: ds =>
    match pickBest f ds with
    | none => some d
    | some e => some (if f e > f d then e else d)

/-- Largest similarity of a candidate to the already selected chunks. -/
def maxSimTo (sim : Doc → Doc → Int) (selected : List Doc) (d : Doc) : Int :=
  (selected.map (fun s => sim s d)).foldl max (-1000000)

/-- Modelled from the spec: the MMR objective balances relevance against
similarity to already selected chunks, penalizing near duplicates. -/
def mmrScore (rel : Doc → Int) (sim : Doc → Doc → Int) (selected : List Doc) (d : Doc) : Int :=
  rel d - maxSimTo sim selected d

/-- Modelled from the spec: greedy maximal-marginal-relevance selection of
at most k chunks from the candidate pool. -/
def mmrSelect (rel : Doc → Int) (sim : Doc → Doc → Int) : Nat → List Doc → List Doc → List Doc
  | 0, _, _ => []
  | Nat.succ k, selected, pool =>
    match pickBest (mmrScore rel sim selected) pool with
    | none => []
    | some d => d :: mmrSelect rel sim k (selected ++ [d]) (pool.erase d)

/-- Modelled from the spec: the external Cohere reranker reorders the
candidates by descending rerank score and keeps the best top_n. -/
def rerank (score : Doc → Int) (topN : Nat) (cands : List Doc) : List Doc :=
  (cands.insertionSort (fun a b => score b ≤ score a)).take topN

/-- Stage one of rag.getRetriever: MMR search with fetch_k 50 and k 10. -/
def stageOne (rel : Doc → Int) (sim : Doc → Doc → Int) (store : List Doc) : List Doc :=
  mmrSelect rel sim 10 [] (fetchPool rel 50 store)

/-- Embeds rag.getRetriever as configured: MMR retrieval with fetch_k 50
and k 10, then Cohere reranking with top_n 3. The external services are
the score parameters. -/
def retrieve (rel : Doc → Int) (sim : Doc → Doc → Int) (score : Doc → Int) (store : List Doc) : List Doc :=
  rerank score 3 (stageOne rel sim store)

/-- Reads the page number from chunk metadata when present as an integer,
as the PDF loader writes it. -/
def getPage (d : Doc) : Option Int :=
  match pyGet d.metadata "page" with
  | some (PyVal.i p) => some p
  | _ => none

/-- Embeds the source_info variable of rag.citeDocs: a page marker when
page metadata exists, otherwise the empty string. -/
def sourceInfo (d : Doc) : String :=
  match getPage d with
  | some p => "Source: Page " ++ toString (p + 1)
  | none => ""

/-- Embeds rag.citeDocs: every chunk becomes a numbered block, blocks are
joined with a blank line. -/
def citeDocs (docs : List Doc) : String :=
  String.intercalate "\n\n" (docs.enum.map (fun pair =>
    "Source ID: " ++ toString (pair.1 + 1) ++ " | " ++ sourceInfo pair.2 ++ "\nContent: " ++ pair.2.pageContent))

/-- Embeds utilities.formatDocsWithIDs: a page block for PDF chunks,
otherwise content with no source marker. -/
def formatDocsWithIDs (docs : List Doc) : String :=
  String.intercalate "\n\n" (docs.map (fun d =>
    match getPage d with
    | some p => "Source: Page " ++ toString p ++ "\nContent: " ++ d.pageContent
    | none => "Content: " ++ d.pageContent))

/-- The page label strings collected by the loop in rag.sourceMetadata. -/
def pageLabels (docs : List Doc) : List String :=
  docs.filterMap (fun d => (getPage d).map (fun p => "Page " ++ toString (p + 1)))

/-- First-occurrence deduplication with an explicit seen set, the order
behavior of Python dict.fromkeys. -/
def dedupAux : List String → List String → List String
  | _, [] => []
  | seen, x :: xs => if x ∈ seen then dedupAux seen xs else x :: dedupAux (x :: seen) xs

/-- Embeds list(dict.fromkeys(sources)). -/
def dedupKeepFirst (l : List String) : List String := dedupAux [] l

/-- Embeds rag.sourceMetadata: page labels of the chunks, deduplicated
keeping the first occurrence of each. -/
def sourceMetadata (docs : List Doc) : List String :=
  dedupKeepFirst (pageLabels docs)

/-- The claim side: distinct elements in order of first appearance, stated
independently of the code as a left fold. -/
def firstSeen (l : List String) : List String :=
  l.foldl (fun acc x => if x ∈ acc then acc else acc ++ [x]) []

/-- Exceptions surfaced by the endpoints: an HTTPException as status code
plus detail, or a TypeError with its message. -/
inductive PyException where
  | http : Nat → String → PyException
  | typeError : String → PyException
deriving DecidableEq, Repr

/-- Embeds str(e): an HTTPException renders as status code then detail, a
TypeError as its message. -/
def strOfExc : PyException → String
  | PyException.http code detail => toString code ++ ": " ++ detail
  | PyException.typeError msg => msg

/-- Embeds the template literal of rag.ragChain with both of its
variables substituted: the text verbatim, indentation included. The chain
as wired never reaches this substitution (see promptInvokeWithString). -/
def promptTemplate (context question : String) : String :=
  "\n        You are a helpful assistant for question-answering tasks.\n        Use the following pieces of retrieved context to answer the question.\n        If you don\x27t know the answer, just say that you don\x27t know, and be graceful about it.\n        Generate a concise answer and provide inline citations from the documents.\n        The citations should be formatted as [Source ID].\n\n        Context:\n        " ++ context ++ "\n\n        Question: " ++ question ++ "\n\n        Answer:"

/-- The input variables of the ChatPromptTemplate built in rag.ragChain:
the template names context and question. -/
def promptInputVariables : List String := ["context", "question"]

/-- Modelled from the library semantics rag.ragChain depends on: a prompt
template invoked with a non-mapping input coerces the value only when the
template has exactly one input variable; with more it raises TypeError.
The one-variable branch is unreachable for this two-variable template and
passes the input through. -/
def promptInvokeWithString (input : String) : Except PyException String :=
  match promptInputVariables with
  | [_] => Except.ok input
  | _ => Except.error (PyException.typeError "Expected mapping type as input to ChatPromptTemplate. Received <class \x27str\x27>.")

/-- The value rag.ragChain would produce for one question: answer text
plus the structured source list. -/
structure RagOutput where
  answer : String
  sources : List String
deriving DecidableEq, Repr

/-- Embeds the chain wiring of rag.ragChain: the first map builds the
mapping with context (the retrieved chunks) and the passed-through
question; the answer branch renders only the context with citeDocs and
pipes that bare string into the prompt, so the prompt sees a non-mapping
input and raises TypeError on every invocation; were the prompt to
accept, the external model llm and the string parser would produce the
answer, with sources computed from the same context in parallel. -/
def ragChainInvoke (retrieveFn : String → List Doc) (llm : String → String) (q : String) : Except PyException RagOutput :=
  let contextDocs := retrieveFn q
  match promptInvokeWithString (citeDocs contextDocs) with
  | Except.ok p => Except.ok { answer := llm p, sources := sourceMetadata contextDocs }
  | Except.error e => Except.error e

/-- JSON-like values as serialized by the HTTP layer. -/
inductive JVal where
  | str : String → JVal
  | arr : List String → JVal
  | obj : List (String × JVal) → JVal

/-- Field lookup in a JSON object. -/
def jGet (k : String) : JVal → Option JVal
  | JVal.obj fs =>
    match fs.lookup k with
    | some v => some v
    | none => none
  | _ => none

/-- Top-level keys of a JSON object. -/
def jKeys : JVal → List String
  | JVal.obj fs => fs.map (fun kv => kv.1)
  | _ => []

/-- Whether a JSON value is a plain string. -/
def jIsStr : JVal → Bool
  | JVal.str _ => true
  | _ => false

/-- Serialization of the dict the chain would return. -/
def ragOutputJson (r : RagOutput) : JVal :=
  JVal.obj [("answer", JVal.str r.answer), ("sources", JVal.arr r.sources)]

/-- Embeds app.run_query: when the chain global is still None the request
is rejected with status 503 before any chain call; otherwise the chain is
invoked inside the try block, a raising invocation is answered with
status 500 carrying str(e), and a successful response dict is wrapped
under the single key answer. The second component counts chain
invocations. -/
def run_query (chain : Option (String → Except PyException RagOutput)) (q : String) : Except PyException JVal × Nat :=
  match chain with
  | none => (Except.error (PyException.http 503 "RAG service is not ready."), 0)
  | some c =>
    match c q with
    | Except.ok r => (Except.ok (JVal.obj [("answer", ragOutputJson r)]), 1)
    | Except.error e =>
      (Except.error (PyException.http 500 ("An error occurred during query processing: " ++ strOfExc e)), 1)

/-- An uploaded file as seen by the ingest endpoint. -/
structure FileUpload where
  contentType : String
  content : String
deriving DecidableEq, Repr

/-- Observable outcome of the ingest try block. -/
structure IngestOutcome where
  documents : List Doc
  fileRead : Bool
  chunks : List Doc
  ids : List String
  message : String
deriving DecidableEq, Repr

/-- The document_id a chunk carries after assignment. -/
def idOf (d : Doc) : String :=
  match pyGet d.metadata "document_id" with
  | some (PyVal.s s) => s
  | _ => ""

/-- Embeds the id assignment loop: document_id is computed from the chunk
before the field is written into its metadata. -/
def withDocID (d : Doc) : Doc :=
  { pageContent := d.pageContent, metadata := pySet d.metadata "document_id" (PyVal.s (getDocID d)) }

/-- Chunk, assign ids and upsert the given documents, producing the ingest
success message. -/
def mkOutcome (len : String → Nat) (documents : List Doc) (fileRead : Bool) : Except PyException IngestOutcome :=
  let withIDs := (splitDocs len documents).map withDocID
  Except.ok
    { documents := documents, fileRead := fileRead, chunks := withIDs,
      ids := withIDs.map idOf,
      message := "Successfully ingested " ++ toString withIDs.length ++ " chunks." }

/-- The error raised when neither text nor a supported file arrives. -/
def noInputExc : PyException :=
  PyException.http 400 "No valid input provided. Please send text_content or a PDF."

/-- The file branch of the ingest body: only a PDF upload is accepted, and
reading it marks the file as consumed. The external PDF loader is the
pdfLoad parameter. -/
def ingestFileBranch (len : String → Nat) (pdfLoad : String → List Doc) : Option FileUpload → Except PyException IngestOutcome
  | some f =>
    if f.contentType = "application/pdf" then mkOutcome len (pdfLoad f.content) true
    else Except.error noInputExc
  | none => Except.error noInputExc

/-- Embeds the try block of app.ingest_document: truthy text wins and
becomes one Document with source user_input; otherwise a PDF upload is
loaded; otherwise an HTTPException with status 400 is raised. -/
def ingestBody (len : String → Nat) (pdfLoad : String → List Doc) : Option String → Option FileUpload → Except PyException IngestOutcome
  | some t, file =>
    if t != "" then
      mkOutcome len [{ pageContent := t, metadata := [("source", PyVal.s "user_input")] }] false
    else ingestFileBranch len pdfLoad file
  | none, file => ingestFileBranch len pdfLoad file

/-- Embeds app.ingest_document including its blanket except handler: any
exception raised in the body, the 400 HTTPException included, is caught
and re-raised with status 500. -/
def ingest_document (len : String → Nat) (pdfLoad : String → List Doc) (text : Option String) (file : Option FileUpload) : Except PyException String :=
  match ingestBody len pdfLoad text file with
  | Except.ok r => Except.ok r.message
  | Except.error e => Except.error (PyException.http 500 ("Failed to ingest document: " ++ strOfExc e))

/-- Observable outcome of indexing.vectorUpsert. -/
structure UpsertOutcome where
  written : List Doc
  ids : Option (List String)
  created : Bool
  ret : Option Nat
deriving DecidableEq, Repr

/-- Embeds indexing.vectorUpsert: every chunk gets its document_id, then
the whole batch is written to the store; with an existing index the ids
are passed explicitly, otherwise the index is created and populated
without explicit ids. The Python function has no return statement, so the
returned value is None. -/
def vectorUpsert (indexExists : Bool) (chunks : List Doc) : UpsertOutcome :=
  let docsWithIDs := chunks.map withDocID
  if indexExists then
    { written := docsWithIDs, ids := some (docsWithIDs.map idOf), created := false, ret := none }
  else
    { written := docsWithIDs, ids := none, created := true, ret := none }

/-- Metadata example: two entries inserted a then b. -/
def mEx1 : Metadata := [("a", PyVal.i 1), ("b", PyVal.i 2)]

/-- The same key-value pairs inserted in the other order. -/
def mEx2 : Metadata := [("b", PyVal.i 2), ("a", PyVal.i 1)]

/-- Whether a separator ladder ends with the character-level separator. -/
def endsEmptyB : List String → Bool
  | [] => false
  | [s] => s == ""
  | _ :: rest => endsEmptyB rest

theorem natToHexFixed_length (w n : Nat) : (natToHexFixed w n).length = w := by
  induction w generalizing n with
  | zero => rfl
  | succ w ih => simp [natToHexFixed, ih]

theorem hexVal_hexDigitChar (d : Nat) (h : d < 16) : hexVal (hexDigitChar d) = d := by
  interval_cases d <;> decide

theorem foldl_hex (w : Nat) : ∀ n acc, n < 16 ^ w →
    List.foldl (fun a c => a * 16 + hexVal c) acc (natToHexFixed w n) = acc * 16 ^ w + n := by
  induction w with
  | zero =>
    intro n acc h
    have hn : n = 0 := Nat.lt_one_iff.mp h
    simp [natToHexFixed, hn]
  | succ w ih =>
    intro n acc h
    have hdiv : n / 16 < 16 ^ w := by
      have : 16 ^ (w + 1) = 16 ^ w * 16 := by ring
      omega
    have hmod : n % 16 < 16 := Nat.mod_lt _ (by omega)
    simp only [natToHexFixed, List.foldl_append, List.foldl_cons, List.foldl_nil]
    rw [ih (n / 16) acc hdiv, hexVal_hexDigitChar (n % 16) hmod]
    calc (acc * 16 ^ w + n / 16) * 16 + n % 16
        = acc * (16 ^ w * 16) + (16 * (n / 16) + n % 16) := by ring
      _ = acc * 16 ^ (w + 1) + n := by rw [Nat.div_add_mod, ← pow_succ]

theorem fromHex_natToHexFixed (w n : Nat) (h : n < 16 ^ w) : fromHex (natToHexFixed w n) = n := by
  have := foldl_hex w n 0 h
  simpa [fromHex] using this

theorem char_toNat_lt (c : Char) : c.toNat < 16 ^ 8 := by
  have h := UInt32.toNat_lt_size c.val
  have hs : UInt32.size = 16 ^ 8 := by norm_num
  rw [hs] at h
  exact h

theorem charToNat_inj (c1 c2 : Char) (h : c1.toNat = c2.toNat) : c1 = c2 := by
  apply Char.ext
  have h2 : c1.val.toBitVec.toNat = c2.val.toBitVec.toNat := h
  have h3 : c1.val.toBitVec = c2.val.toBitVec := BitVec.eq_of_toNat_eq h2
  cases hv1 : c1.val with
  | mk bv1 =>
    cases hv2 : c2.val with
    | mk bv2 =>
      rw [hv1, hv2] at h3
      simp only at h3
      rw [h3]

theorem charHex_inj (c1 c2 : Char) (h : charHex c1 = charHex c2) : c1 = c2 := by
  apply charToNat_inj
  have h1 := fromHex_natToHexFixed 8 c1.toNat (char_toNat_lt c1)
  have h2 := fromHex_natToHexFixed 8 c2.toNat (char_toNat_lt c2)
  rw [← h1, ← h2]
  unfold charHex at h
  rw [h]

theorem charHex_length (c : Char) : (charHex c).length = 8 := natToHexFixed_length 8 c.toNat

theorem mem_natToHexFixed (w : Nat) : ∀ n c, c ∈ natToHexFixed w n → ∃ d, d < 16 ∧ c = hexDigitChar d := by
  induction w with
  | zero => intro n c h; simp [natToHexFixed] at h
  | succ w ih =>
    intro n c h
    simp only [natToHexFixed, List.mem_append, List.mem_singleton] at h
    cases h with
    | inl h => exact ih (n / 16) c h
    | inr h => exact ⟨n % 16, Nat.mod_lt _ (by omega), h⟩

theorem hexDigitChar_ne_dash (d : Nat) (h : d < 16) : hexDigitChar d ≠ ('-' : Char) := by
  interval_cases d <;> decide

theorem mem_concatAll (c : Char) : ∀ ls : List (List Char), c ∈ concatAll ls → ∃ l, l ∈ ls ∧ c ∈ l := by
  intro ls
  induction ls with
  | nil => intro h; simp [concatAll] at h
  | cons l tail ih =>
    intro h
    simp only [concatAll, List.mem_append] at h
    cases h with
    | inl h => exact ⟨l, List.mem_cons_self l tail, h⟩
    | inr h =>
      obtain ⟨l2, hl2, hc⟩ := ih h
      exact ⟨l2, List.mem_cons_of_mem l hl2, hc⟩

theorem dash_not_mem_sha256hex (s : String) : ('-' : Char) ∉ (sha256hex s).data := by
  intro hmem
  have hdata : (sha256hex s).data = concatAll (s.data.map charHex) := rfl
  rw [hdata] at hmem
  obtain ⟨l, hl, hc⟩ := mem_concatAll _ _ hmem
  obtain ⟨ch, _, rfl⟩ := List.mem_map.mp hl
  obtain ⟨d, hd, heq⟩ := mem_natToHexFixed 8 ch.toNat _ hc
  exact hexDigitChar_ne_dash d hd heq.symm

theorem concat_charHex_inj : ∀ l1 l2 : List Char,
    concatAll (l1.map charHex) = concatAll (l2.map charHex) → l1 = l2 := by
  intro l1
  induction l1 with
  | nil =>
    intro l2 h
    cases l2 with
    | nil => rfl
    | cons b bs =>
      exfalso
      simp only [List.map_nil, List.map_cons, concatAll] at h
      have hlen : (0 : Nat) = ((charHex b ++ concatAll (bs.map charHex)).length) := by rw [← h]; rfl
      rw [List.length_append, charHex_length] at hlen
      omega
  | cons a as ih =>
    intro l2 h
    cases l2 with
    | nil =>
      exfalso
      simp only [List.map_nil, List.map_cons, concatAll] at h
      have hlen : ((charHex a ++ concatAll (as.map charHex)).length) = (0 : Nat) := by rw [h]; rfl
      rw [List.length_append, charHex_length] at hlen
      omega
    | cons b bs =>
      simp only [List.map_cons, concatAll] at h
      have hlen : (charHex a).length = (charHex b).length := by rw [charHex_length, charHex_length]
      obtain ⟨h1, h2⟩ := List.append_inj h hlen
      rw [charHex_inj a b h1, ih bs h2]

theorem sha256hex_inj (s1 s2 : String) (h : sha256hex s1 = sha256hex s2) : s1 = s2 := by
  have hdata : concatAll (s1.data.map charHex) = concatAll (s2.data.map charHex) := by
    have : (sha256hex s1).data = (sha256hex s2).data := by rw [h]
    exact this
  have hd := concat_charHex_inj s1.data s2.data hdata
  cases s1 with
  | mk d1 =>
    cases s2 with
    | mk d2 =>
      simp only at hd
      rw [hd]

theorem splitDash : ∀ a1 a2 b1 b2 : List Char, ('-' : Char) ∉ a1 → ('-' : Char) ∉ a2 →
    a1 ++ ('-' : Char) :: b1 = a2 ++ ('-' : Char) :: b2 → a1 = a2 ∧ b1 = b2 := by
  intro a1
  induction a1 with
  | nil =>
    intro a2 b1 b2 _ h2 h
    cases a2 with
    | nil => simpa using h
    | cons x xs =>
      exfalso
      simp only [List.nil_append, List.cons_append, List.cons.injEq] at h
      exact h2 (h.1 ▸ List.mem_cons_self x xs)
  | cons x xs ih =>
    intro a2 b1 b2 h1 h2 h
    cases a2 with
    | nil =>
      exfalso
      simp only [List.cons_append, List.nil_append, List.cons.injEq] at h
      exact h1 (h.1 ▸ List.mem_cons_self x xs)
    | cons y ys =>
      simp only [List.cons_append, List.cons.injEq] at h
      obtain ⟨hxy, hrest⟩ := h
      have hx : ('-' : Char) ∉ xs := fun hm => h1 (List.mem_cons_of_mem x hm)
      have hy : ('-' : Char) ∉ ys := fun hm => h2 (List.mem_cons_of_mem y hm)
      obtain ⟨ha, hb⟩ := ih ys b1 b2 hx hy hrest
      exact ⟨by rw [hxy, ha], hb⟩

/-- C1 (amended): getDocID is a pure function of the content string and of
the string representation of the metadata dict: two calls return the same
ChunkID exactly when the contents are equal and the metadata renders to
the same string (in particular, when both insertion orders coincide), and
any difference in content or in the rendered metadata changes the ID. -/
theorem getDocID_eq_iff (c1 c2 : String) (m1 m2 : Metadata) :
    getDocID { pageContent := c1, metadata := m1 } = getDocID { pageContent := c2, metadata := m2 }
    ↔ (c1 = c2 ∧ pyStrDict m1 = pyStrDict m2) := by
  constructor
  · intro h
    have hdata : (sha256hex c1).data ++ ('-' : Char) :: (sha256hex (pyStrDict m1)).data
               = (sha256hex c2).data ++ ('-' : Char) :: (sha256hex (pyStrDict m2)).data := by
      have h2 := congrArg String.data h
      simpa [getDocID, String.data_append] using h2
    obtain ⟨ha, hb⟩ := splitDash _ _ _ _ (dash_not_mem_sha256hex c1) (dash_not_mem_sha256hex c2) hdata
    exact ⟨sha256hex_inj _ _ (String.ext ha), sha256hex_inj _ _ (String.ext hb)⟩
  · intro h
    simp [getDocID, h.1, h.2]

/-- C1 counterexample: the two metadata dicts hold exactly the same
key-value pairs (they are permutations and agree under lookup on every
key), yet getDocID distinguishes them because str(dict) renders insertion
order; so equal content plus metadata equal as key-value maps does not
imply an identical ID. -/
theorem getDocID_insertion_order_counterexample :
    mEx1 ≠ mEx2 ∧ mEx1.Perm mEx2
    ∧ pyGet mEx1 "a" = pyGet mEx2 "a" ∧ pyGet mEx1 "b" = pyGet mEx2 "b"
    ∧ getDocID { pageContent := "x", metadata := mEx1 } ≠ getDocID { pageContent := "x", metadata := mEx2 } := by
  refine ⟨by decide, by decide, by decide, by decide, by decide⟩

theorem sumLen_append (len : String → Nat) : ∀ l1 l2 : List String,
    sumLen len (l1 ++ l2) = sumLen len l1 + sumLen len l2 := by
  intro l1 l2
  induction l1 with
  | nil => simp [sumLen]
  | cons s ss ih => simp [sumLen, ih]; omega

theorem len_joinAll_le (len : String → Nat) (hsub : ∀ a b, len (a ++ b) ≤ len a + len b)
    (hemp : len "" = 0) : ∀ g, len (joinAll g) ≤ sumLen len g := by
  intro g
  induction g with
  | nil => simp [joinAll, sumLen, hemp]
  | cons s ss ih =>
    calc len (joinAll (s :: ss)) = len (s ++ joinAll ss) := rfl
      _ ≤ len s + len (joinAll ss) := hsub s (joinAll ss)
      _ ≤ len s + sumLen len ss := by omega
      _ = sumLen len (s :: ss) := rfl

theorem mem_flushJoin (cur : List String) (c : String) (hc : c ∈ flushJoin cur) : c = joinAll cur := by
  unfold flushJoin at hc
  by_cases h : joinAll cur = ""
  · rw [if_pos h] at hc
    simp at hc
  · rw [if_neg h] at hc
    simpa using hc

theorem popOverlap_spec (len : String → Nat) (size overlap nextLen : Nat) : ∀ cur,
    popOverlap len size overlap nextLen cur = []
    ∨ (sumLen len (popOverlap len size overlap nextLen cur) ≤ overlap
       ∧ (sumLen len (popOverlap len size overlap nextLen cur) + nextLen ≤ size
          ∨ sumLen len (popOverlap len size overlap nextLen cur) = 0)) := by
  intro cur
  induction cur with
  | nil => left; rfl
  | cons c cs ih =>
    by_cases h : sumLen len (c :: cs) > overlap ∨ (sumLen len (c :: cs) + nextLen > size ∧ sumLen len (c :: cs) > 0)
    · rw [popOverlap, if_pos h]
      exact ih
    · rw [popOverlap, if_neg h]
      right
      omega

theorem mergeAux_mem (len : String → Nat) (size overlap : Nat) :
    ∀ ds cur c, (∀ p ∈ ds, len p < size) → sumLen len cur ≤ size →
    c ∈ mergeAux len size overlap cur ds → ∃ g, c = joinAll g ∧ sumLen len g ≤ size := by
  intro ds
  induction ds with
  | nil =>
    intro cur c _ hcur hc
    exact ⟨cur, mem_flushJoin cur c hc, hcur⟩
  | cons d ds ih =>
    intro cur c hds hcur hc
    have hd : len d < size := hds d (List.mem_cons_self d ds)
    have hds2 : ∀ p ∈ ds, len p < size := fun p hp => hds p (List.mem_cons_of_mem d hp)
    by_cases h : sumLen len cur + len d > size
    · rw [mergeAux, if_pos h] at hc
      rcases List.mem_append.mp hc with hleft | hright
      · exact ⟨cur, mem_flushJoin cur c hleft, hcur⟩
      · have hnew : sumLen len (popOverlap len size overlap (len d) cur ++ [d]) ≤ size := by
          rw [sumLen_append]
          have hspec := popOverlap_spec len size overlap (len d) cur
          rcases hspec with hnil | ⟨_, hok⟩
          · rw [hnil]
            simp [sumLen]
            omega
          · simp [sumLen]
            omega
        exact ih _ c hds2 hnew hright
    · rw [mergeAux, if_neg h] at hc
      have hnew : sumLen len (cur ++ [d]) ≤ size := by
        rw [sumLen_append]
        simp [sumLen]
        omega
      exact ih _ c hds2 hnew hc

theorem mergeSplits_mem (len : String → Nat) (size overlap : Nat) (ds : List String) (c : String)
    (hds : ∀ p ∈ ds, len p < size) (hc : c ∈ mergeSplits len size overlap ds) :
    ∃ g, c = joinAll g ∧ sumLen len g ≤ size := by
  exact mergeAux_mem len size overlap ds [] c hds (by simp [sumLen]) hc

theorem mergeRunsAux_mem (len : String → Nat) (size overlap : Nat) :
    ∀ tags acc c, (∀ p ∈ acc, len p < size) → (∀ g, Sum.inl g ∈ tags → len g < size) →
    c ∈ mergeRunsAux len size overlap acc tags →
    (∃ g, c = joinAll g ∧ sumLen len g ≤ size) ∨ (∃ cs, Sum.inr cs ∈ tags ∧ c ∈ cs) := by
  intro tags
  induction tags with
  | nil =>
    intro acc c hacc _ hc
    left
    exact mergeSplits_mem len size overlap acc c hacc hc
  | cons t ts ih =>
    intro acc c hacc htags hc
    cases t with
    | inl g =>
      have hg : len g < size := htags g (List.mem_cons_self _ _)
      have hacc2 : ∀ p ∈ acc ++ [g], len p < size := by
        intro p hp
        rcases List.mem_append.mp hp with h1 | h2
        · exact hacc p h1
        · simp at h2
          rw [h2]
          exact hg
      have htags2 : ∀ g2, Sum.inl g2 ∈ ts → len g2 < size :=
        fun g2 hg2 => htags g2 (List.mem_cons_of_mem _ hg2)
      rcases ih (acc ++ [g]) c hacc2 htags2 hc with hl | ⟨cs, hcs, hmem⟩
      · exact Or.inl hl
      · exact Or.inr ⟨cs, List.mem_cons_of_mem _ hcs, hmem⟩
    | inr cs =>
      rw [mergeRunsAux] at hc
      rcases List.mem_append.mp hc with h1 | h2
      · rcases List.mem_append.mp h1 with h1a | h1b
        · exact Or.inl (mergeSplits_mem len size overlap acc c hacc h1a)
        · exact Or.inr ⟨cs, List.mem_cons_self _ _, h1b⟩
      · have htags2 : ∀ g2, Sum.inl g2 ∈ ts → len g2 < size :=
          fun g2 hg2 => htags g2 (List.mem_cons_of_mem _ hg2)
        rcases ih [] c (by simp) htags2 h2 with hl | ⟨cs2, hcs2, hmem2⟩
        · exact Or.inl hl
        · exact Or.inr ⟨cs2, List.mem_cons_of_mem _ hcs2, hmem2⟩

theorem splitKeepSep_empty_mem (text : String) (c : String) (hc : c ∈ splitKeepSep "" text) :
    c.length = 1 := by
  unfold splitKeepSep at hc
  rw [if_pos rfl] at hc
  have hmem := List.mem_of_mem_filter hc
  obtain ⟨ch, _, hch⟩ := List.mem_map.mp hmem
  rw [← hch]
  rfl

theorem splitTextF_budget (len : String → Nat) (size overlap : Nat)
    (hsub : ∀ a b, len (a ++ b) ≤ len a + len b) (hemp : len "" = 0) :
    ∀ fuel seps text c, fuel = seps.length → endsEmptyB seps = true →
    c ∈ splitTextF len size overlap fuel seps text → len c ≤ size ∨ c.length = 1 := by
  intro fuel
  induction fuel with
  | zero =>
    intro seps text c hfe hend _
    cases seps with
    | nil => simp [endsEmptyB] at hend
    | cons s rest => simp at hfe
  | succ fuel ih =>
    intro seps text c hfe hend hc
    cases seps with
    | nil => simp [endsEmptyB] at hend
    | cons sep rest =>
      rw [splitTextF] at hc
      have htags : ∀ g, Sum.inl g ∈ (splitKeepSep sep text).map (fun p =>
          if len p < size then Sum.inl p else Sum.inr (splitTextF len size overlap fuel rest p)) →
          len g < size := by
        intro g hg
        obtain ⟨p, _, htag⟩ := List.mem_map.mp hg
        by_cases h : len p < size
        · rw [if_pos h] at htag
          have h2 : p = g := by injection htag
          rw [← h2]
          exact h
        · rw [if_neg h] at htag
          exact absurd htag (by simp)
      rcases mergeRunsAux_mem len size overlap _ [] c (by simp) htags hc with
        ⟨g, hg, hsum⟩ | ⟨cs, hcs, hmem⟩
      · left
        rw [hg]
        exact Nat.le_trans (len_joinAll_le len hsub hemp g) hsum
      · obtain ⟨p, hp, htag⟩ := List.mem_map.mp hcs
        have hcseq : cs = splitTextF len size overlap fuel rest p := by
          by_cases h : len p < size
          · rw [if_pos h] at htag
            exact absurd htag (by simp)
          · rw [if_neg h] at htag
            have h2 : splitTextF len size overlap fuel rest p = cs := by injection htag
            exact h2.symm
        rw [hcseq] at hmem
        have hfuel : fuel = rest.length := by simpa using hfe
        cases rest with
        | nil =>
          have hsep : sep = "" := by
            simp [endsEmptyB] at hend
            exact hend
          have hf0 : fuel = 0 := hfuel
          rw [hf0, splitTextF] at hmem
          simp at hmem
          rw [hmem]
          right
          rw [hsep] at hp
          exact splitKeepSep_empty_mem text p hp
        | cons r rs =>
          have hend2 : endsEmptyB (r :: rs) = true := hend
          exact ih (r :: rs) p c hfuel hend2 hmem


/-- C2: every chunk produced by the configured splitter has token count at
most the configured chunk size 1000, except a chunk that is a single
character, the unit no separator of the ladder can split further. The
tokenizer is abstract: any length function that is subadditive on
concatenation and assigns zero to the empty string, as the fixed
cl100k_base token counter of utilities.tokenCount is. -/
theorem chunk_token_budget (len : String → Nat) (text c : String)
    (hsub : ∀ a b, len (a ++ b) ≤ len a + len b) (hemp : len "" = 0)
    (hc : c ∈ chunkText len text) :
    len c ≤ 1000 ∨ c.length = 1 := by
  have hend : endsEmptyB theSeparators = true := by decide
  exact splitTextF_budget len 1000 200 hsub hemp theSeparators.length theSeparators text c rfl hend hc

/-- Witness for C2 at the character-count length function and a concrete
document. -/
theorem chunk_token_budget_witness :
    ("hello" ∈ chunkText String.length "hello")
    ∧ (String.length "hello" ≤ 1000 ∨ ("hello" : String).length = 1) := by
  constructor
  · decide
  · exact chunk_token_budget String.length "hello" "hello"
      (fun a b => Nat.le_of_eq (String.length_append a b))
      rfl
      (by decide)

theorem pickBest_none_iff (f : Doc → Int) : ∀ l, pickBest f l = none ↔ l = [] := by
  intro l
  cases l with
  | nil => simp [pickBest]
  | cons d ds =>
    constructor
    · intro h
      rw [pickBest] at h
      cases hpb : pickBest f ds with
      | none => rw [hpb] at h; exact absurd h (by simp)
      | some e => rw [hpb] at h; exact absurd h (by simp)
    · intro h
      exact absurd h (by simp)

theorem pickBest_mem (f : Doc → Int) : ∀ l d, pickBest f l = some d → d ∈ l := by
  intro l
  induction l with
  | nil => intro d h; simp [pickBest] at h
  | cons a as ih =>
    intro d h
    rw [pickBest] at h
    cases hpb : pickBest f as with
    | none =>
      rw [hpb] at h
      have h2 : a = d := by injection h
      rw [← h2]
      exact List.mem_cons_self _ _
    | some e =>
      rw [hpb] at h
      have h2 : (if f e > f a then e else a) = d := by injection h
      by_cases hcond : f e > f a
      · rw [if_pos hcond] at h2
        rw [← h2]
        exact List.mem_cons_of_mem _ (ih e hpb)
      · rw [if_neg hcond] at h2
        rw [← h2]
        exact List.mem_cons_self _ _

theorem mmrSelect_length (rel : Doc → Int) (sim : Doc → Doc → Int) :
    ∀ k selected pool, (mmrSelect rel sim k selected pool).length = min k pool.length := by
  intro k
  induction k with
  | zero => intro selected pool; simp [mmrSelect]
  | succ k ih =>
    intro selected pool
    cases hpool : pool with
    | nil =>
      have hnone : pickBest (mmrScore rel sim selected) [] = none := rfl
      simp [mmrSelect, hnone]
    | cons d ds =>
      have hsome : ∃ e, pickBest (mmrScore rel sim selected) (d :: ds) = some e := by
        cases hpb : pickBest (mmrScore rel sim selected) (d :: ds) with
        | none => exact absurd ((pickBest_none_iff _ _).mp hpb) (by simp)
        | some e => exact ⟨e, rfl⟩
      obtain ⟨e, he⟩ := hsome
      rw [mmrSelect, he]
      have hmem := pickBest_mem _ _ e he
      have herase : ((d :: ds).erase e).length = (d :: ds).length - 1 :=
        List.length_erase_of_mem hmem
      rw [List.length_cons, ih, herase]
      simp only [List.length_cons]
      omega

theorem rerank_sorted (score : Doc → Int) (topN : Nat) (cands : List Doc) :
    List.Pairwise (fun a b => score b ≤ score a) (rerank score topN cands) := by
  haveI : IsTotal Doc (fun a b => score b ≤ score a) := ⟨fun a b => le_total (score b) (score a)⟩
  haveI : IsTrans Doc (fun a b => score b ≤ score a) := ⟨fun a b c hab hbc => le_trans hbc hab⟩
  have hs := List.sorted_insertionSort (fun a b => score b ≤ score a) cands
  exact List.Pairwise.sublist (List.take_sublist _ _) hs

/-- C3: the retrieval pipeline as configured in rag.getRetriever fetches a
candidate pool of 50 (all of the store when it holds fewer), the MMR stage
keeps a diverse subset of 10 of them, and the rerank stage orders by
descending rerank score and truncates so the final result never exceeds 3
chunks, best first. -/
theorem retrieval_pipeline_shape (rel : Doc → Int) (sim : Doc → Doc → Int) (score : Doc → Int) (store : List Doc) :
    (fetchPool rel 50 store).length = min 50 store.length
    ∧ (stageOne rel sim store).length = min 10 (min 50 store.length)
    ∧ (retrieve rel sim score store).length ≤ 3
    ∧ List.Pairwise (fun a b => score b ≤ score a) (retrieve rel sim score store) := by
  have hpool : (fetchPool rel 50 store).length = min 50 store.length := by
    unfold fetchPool
    rw [List.length_take, List.length_insertionSort]
  refine ⟨hpool, ?_, ?_, ?_⟩
  · unfold stageOne
    rw [mmrSelect_length, hpool]
  · unfold retrieve rerank
    exact le_trans (List.length_take_le _ _) (le_refl 3)
  · unfold retrieve
    exact rerank_sorted score 3 (stageOne rel sim store)

theorem dedupAux_mem : ∀ (l seen : List String) (x : String),
    x ∈ dedupAux seen l ↔ (x ∈ l ∧ x ∉ seen) := by
  intro l
  induction l with
  | nil => intro seen x; simp [dedupAux]
  | cons a as ih =>
    intro seen x
    by_cases h : a ∈ seen
    · rw [dedupAux, if_pos h, ih]
      constructor
      · rintro ⟨h1, h2⟩
        exact ⟨List.mem_cons_of_mem _ h1, h2⟩
      · rintro ⟨h1, h2⟩
        rcases List.mem_cons.mp h1 with rfl | h3
        · exact absurd h h2
        · exact ⟨h3, h2⟩
    · rw [dedupAux, if_neg h]
      constructor
      · intro hx
        rcases List.mem_cons.mp hx with rfl | h3
        · exact ⟨List.mem_cons_self _ _, h⟩
        · obtain ⟨h4, h5⟩ := (ih (a :: seen) x).mp h3
          have h6 : x ∉ seen := fun hs => h5 (List.mem_cons_of_mem _ hs)
          exact ⟨List.mem_cons_of_mem _ h4, h6⟩
      · rintro ⟨h1, h2⟩
        rcases List.mem_cons.mp h1 with rfl | h3
        · exact List.mem_cons_self _ _
        · by_cases hxa : x = a
          · rw [hxa]
            exact List.mem_cons_self _ _
          · apply List.mem_cons_of_mem
            exact (ih (a :: seen) x).mpr ⟨h3, by simp [List.mem_cons, hxa, h2]⟩

theorem dedupAux_nodup : ∀ (l seen : List String), (dedupAux seen l).Nodup := by
  intro l
  induction l with
  | nil => intro seen; simp [dedupAux]
  | cons a as ih =>
    intro seen
    by_cases h : a ∈ seen
    · rw [dedupAux, if_pos h]
      exact ih seen
    · rw [dedupAux, if_neg h]
      refine List.nodup_cons.mpr ⟨?_, ih (a :: seen)⟩
      intro hmem
      have h2 := (dedupAux_mem as (a :: seen) a).mp hmem
      exact h2.2 (List.mem_cons_self _ _)

theorem foldl_dedup : ∀ (l acc seen : List String), (∀ y, y ∈ seen ↔ y ∈ acc) →
    List.foldl (fun acc2 x => if x ∈ acc2 then acc2 else acc2 ++ [x]) acc l = acc ++ dedupAux seen l := by
  intro l
  induction l with
  | nil => intro acc seen _; simp [dedupAux]
  | cons a as ih =>
    intro acc seen hiff
    rw [List.foldl_cons, dedupAux]
    by_cases h : a ∈ seen
    · rw [if_pos h, if_pos ((hiff a).mp h)]
      exact ih acc seen hiff
    · have hnacc : a ∉ acc := fun hacc => h ((hiff a).mpr hacc)
      rw [if_neg h, if_neg hnacc]
      rw [ih (acc ++ [a]) (a :: seen) ?_]
      · rw [List.append_assoc]
        rfl
      · intro y
        simp only [List.mem_cons, List.mem_append, List.mem_singleton, hiff y]
        tauto

/-- C4: the structured sources list of the answer chain holds exactly one
entry per distinct page label among the chunks that carry page metadata,
in first-seen order (it equals the order-preserving first-occurrence
deduplication of the page label sequence and has no duplicates); chunks
without page metadata contribute nothing, so a chunk sequence with no page
metadata yields an empty list. -/
theorem answer_sources_dedup (docs : List Doc) (s : String) :
    sourceMetadata docs = firstSeen (pageLabels docs)
    ∧ (sourceMetadata docs).Nodup
    ∧ (s ∈ sourceMetadata docs ↔ s ∈ pageLabels docs) := by
  refine ⟨?_, dedupAux_nodup _ _, ?_⟩
  · unfold firstSeen sourceMetadata dedupKeepFirst
    rw [foldl_dedup (pageLabels docs) [] [] (by simp)]
    simp
  · unfold sourceMetadata dedupKeepFirst
    rw [dedupAux_mem]
    simp

/-- C5: a bug in the query path: the answer branch of rag.ragChain pipes
the bare citeDocs context string into the prompt, but the template has
two input variables (context and question), so the prompt rejects the
non-mapping input with TypeError on every invocation and app.run_query
answers 500 with the wrapped message instead of ever returning the
documented answer-plus-sources object. Evaluated on a ready chain with an
empty retrieval and a fixed model. -/
theorem run_query_prompt_type_error :
    promptInputVariables.length = 2
    ∧ ragChainInvoke (fun _ => []) (fun _ => "ok") "What is the capital of France?"
      = Except.error (PyException.typeError "Expected mapping type as input to ChatPromptTemplate. Received <class \x27str\x27>.")
    ∧ (run_query (some (ragChainInvoke (fun _ => []) (fun _ => "ok"))) "What is the capital of France?").1
      = Except.error (PyException.http 500 "An error occurred during query processing: Expected mapping type as input to ChatPromptTemplate. Received <class \x27str\x27>.") := by
  refine ⟨rfl, rfl, rfl⟩

/-- C8: a query arriving while the chain global is still None is rejected
with the dedicated 503 not-ready status, distinct from the generic 500
error, and the chain is never invoked (the invocation counter is zero). -/
theorem run_query_not_ready (q : String) :
    (run_query none q).1 = Except.error (PyException.http 503 "RAG service is not ready.")
    ∧ (run_query none q).2 = 0
    ∧ (503 : Nat) ≠ 500 := ⟨rfl, rfl, by decide⟩

/-- C7: a bug in app.ingest_document: the body correctly raises an
HTTPException with client-error status 400 when neither text nor a
supported file is provided, but the blanket except handler catches that
very exception and re-raises it with server-error status 500, so the
endpoint answers 500, not a 4xx status, for malformed input. -/
theorem ingest_no_input_wrapped_500 :
    ingestBody String.length (fun _ => []) none none = Except.error noInputExc
    ∧ noInputExc = PyException.http 400 "No valid input provided. Please send text_content or a PDF."
    ∧ ingest_document String.length (fun _ => []) none none
      = Except.error (PyException.http 500 "Failed to ingest document: 400: No valid input provided. Please send text_content or a PDF.") := by
  refine ⟨rfl, rfl, rfl⟩

/-- C9 counterexample: vectorUpsert writes one chunk but its returned
value is None, not the count 1, so the claim that it returns the count of
chunks written fails. -/
theorem vectorUpsert_no_count :
    (vectorUpsert true [{ pageContent := "x", metadata := [] }]).written.length = 1
    ∧ (vectorUpsert true [{ pageContent := "x", metadata := [] }]).ret ≠ some 1 := by
  refine ⟨rfl, by decide⟩

/-- C9 (amended): vectorUpsert attaches a document_id to every chunk and
writes the whole batch (one write per chunk, in both index branches), but
it returns None rather than the count of chunks written. -/
theorem vectorUpsert_semantics (indexExists : Bool) (chunks : List Doc) :
    (vectorUpsert indexExists chunks).ret = none
    ∧ (vectorUpsert indexExists chunks).written = chunks.map withDocID
    ∧ (vectorUpsert indexExists chunks).written.length = chunks.length := by
  cases indexExists <;> simp [vectorUpsert]

/-- C10: when the ingest request carries both nonempty text and an
uploaded PDF, only the text is ingested, as one Document with source
user_input metadata; the file is never read (the fileRead flag stays
false and the outcome is identical to the request without the file,
whatever the PDF loader would return). -/
theorem ingest_text_precedence (len : String → Nat) (pdf1 pdf2 : String → List Doc)
    (t : String) (f : FileUpload) (h : t ≠ "") :
    (ingestBody len pdf1 (some t) (some f)).map (fun r => r.documents)
      = Except.ok [{ pageContent := t, metadata := [("source", PyVal.s "user_input")] }]
    ∧ (ingestBody len pdf1 (some t) (some f)).map (fun r => r.fileRead) = Except.ok false
    ∧ ingestBody len pdf1 (some t) (some f) = ingestBody len pdf2 (some t) none := by
  have ht : (t != "") = true := by simpa using h
  refine ⟨?_, ?_, ?_⟩ <;> simp [ingestBody, ht, mkOutcome, Except.map]

/-- Witness for C10 at concrete text, file and loaders. -/
theorem ingest_text_precedence_witness :
    (("Paris" : String) ≠ "")
    ∧ ((ingestBody String.length (fun _ => []) (some "Paris") (some { contentType := "application/pdf", content := "bytes" })).map (fun r => r.documents)
        = Except.ok [{ pageContent := "Paris", metadata := [("source", PyVal.s "user_input")] }]
      ∧ (ingestBody String.length (fun _ => []) (some "Paris") (some { contentType := "application/pdf", content := "bytes" })).map (fun r => r.fileRead) = Except.ok false
      ∧ ingestBody String.length (fun _ => []) (some "Paris") (some { contentType := "application/pdf", content := "bytes" })
        = ingestBody String.length (fun _ => [{ pageContent := "pg", metadata := [] }]) (some "Paris") none) := by
  refine ⟨by decide, ingest_text_precedence String.length (fun _ => []) (fun _ => [{ pageContent := "pg", metadata := [] }]) "Paris" { contentType := "application/pdf", content := "bytes" } (by decide)⟩

/-- C6 counterexample: the context renderer used by the chain is
rag.citeDocs, and it labels a chunk without page metadata with an explicit
Source ID marker instead of rendering bare content; only the unused
utilities.formatDocsWithIDs renders pageless chunks without a source
marker. So the claim that a chunk without page metadata is rendered with
no explicit source marker fails on the prompt context. -/
theorem citeDocs_pageless_counterexample :
    citeDocs [{ pageContent := "hello", metadata := [] }] = "Source ID: 1 | \nContent: hello"
    ∧ citeDocs [{ pageContent := "hello", metadata := [] }] ≠ "Content: hello"
    ∧ formatDocsWithIDs [{ pageContent := "hello", metadata := [] }] = "Content: hello" := by
  refine ⟨by decide, by decide, by decide⟩

/-- C6 (amended): every chunk is rendered into a labeled block and blocks
are joined with double newlines; a chunk with page metadata gets a Source
ID label that includes a page marker, and a chunk without page metadata
gets a Source ID label with an empty page marker rather than a bare
content block. -/
theorem citeDocs_structure (docs : List Doc) :
    citeDocs docs = String.intercalate "\n\n" (docs.enum.map (fun pair =>
      match getPage pair.2 with
      | some p => "Source ID: " ++ toString (pair.1 + 1) ++ " | Source: Page " ++ toString (p + 1) ++ "\nContent: " ++ pair.2.pageContent
      | none => "Source ID: " ++ toString (pair.1 + 1) ++ " | " ++ "\nContent: " ++ pair.2.pageContent)) := by
  unfold citeDocs
  congr 1
  apply List.map_congr_left
  intro pair _
  cases hp : getPage pair.2 with
  | some p =>
    simp only [sourceInfo, hp]
    simp only [String.append_assoc]
    rw [← String.append_assoc " | " "Source: Page "]
    simp [String.append_assoc]
  | none =>
    simp only [sourceInfo, hp]
    simp [String.append_assoc]
